import Mathlib

set_option maxRecDepth 100000

attribute [local semireducible] Rat.ofScientific Rat.mul Rat.inv Rat.add Rat.sub

/-!
Formal model of the pdf-number-parser repository.

The repository holds two command-line utilities:

* `find_max_number.py` — extracts all numeric literals from a PDF, detects a
  unit multiplier ("values in millions", "$M", ...) with a confidence score,
  conditionally rescales the numbers and reports the top-N largest values.
* `pdf_number_parser.py` — extracts decimal literals, filters code-like and
  out-of-context matches, and reports the single largest value adjusted by a
  document-global and a context-local multiplier.

Text is modelled as `List Char`.  Python `re` patterns are modelled by a
small backtracking matcher in continuation-passing style that mirrors the
semantics of the `re` module for the concrete patterns appearing in the
source: leftmost-first alternation, greedy quantifiers with backtracking,
word boundaries, and non-overlapping left-to-right `finditer` scanning.
Python floats are idealised as rationals (`ℚ`); the numeric literals and
multipliers involved are exactly representable, so every comparison made by
the code is faithfully reproduced.
-/

/-! ### Character classes and small string utilities -/

/-- Python `\s` (ASCII range, as produced by PDF text extraction). -/
def isPySpace (c : Char) : Bool :=
  c = ' ' || c = '\t' || c = '\n' || c = '\x0d' || c = '\x0b' || c = '\x0c'

/-- Python `\w`: letters, digits and underscore (ASCII model). -/
def isWordChar (c : Char) : Bool :=
  c.isAlphanum || c = '_'

/-- Whether an optional "previous character" is a word character. -/
def wordAt : Option Char → Bool
  | none => false
  | some c => isWordChar c

/-- Whether the first character of the remaining text is a word character. -/
def headWord : List Char → Bool
  | [] => false
  | c :: _ => isWordChar c

/-- Python `str.strip()`: remove leading and trailing whitespace. -/
def pyStrip (l : List Char) : List Char :=
  ((l.dropWhile isPySpace).reverse.dropWhile isPySpace).reverse

/-- Python `needle in hay` on strings: substring containment. -/
def isSubstrOf (needle hay : List Char) : Bool :=
  hay.tails.any (fun t => needle.isPrefixOf t)

/-- Python slice `text[s:e]` (indices already clamped to `[0, length]`). -/
def pySlice (text : List Char) (s e : Nat) : List Char :=
  (text.drop s).take (e - s)

/-- Python `str.lower()` (ASCII model). -/
def pyLower (l : List Char) : List Char := l.map Char.toLower

/-! ### A backtracking regex matcher in continuation-passing style

A continuation receives the character preceding the current position (for
word boundaries) and the remaining text, and returns the number of further
characters consumed on success.  A pattern transforms a continuation; a
whole-pattern match at a position is obtained by running it against the
trivially accepting continuation. -/

/-- Matcher continuation: previous character, remaining text, result. -/
abbrev MCont : Type := Option Char → List Char → Option Nat

/-- A pattern piece in continuation-passing style. -/
abbrev MPat : Type := MCont → MCont

/-- The accepting continuation. -/
def acceptK : MCont := fun _ _ => some 0

/-- Python `\b`: exactly one of the two neighbouring characters is a word
character. -/
def wb : MPat := fun k prev rest =>
  if wordAt prev != headWord rest then k prev rest else none

/-- Match a literal character sequence, comparing with `eq`. -/
def litGo (eq : Char → Char → Bool) (k : MCont) :
    List Char → Option Char → List Char → Option Nat
  | [], prev, rest => k prev rest
  | _ :: _, _, [] => none
  | c :: cs, _, r :: rs =>
      if eq r c then (litGo eq k cs (some r) rs).map (· + 1) else none

/-- Case-sensitive literal. -/
def litCS (s : String) : MPat := fun k prev rest =>
  litGo (fun r c => r = c) k s.toList prev rest

/-- Case-insensitive literal (`re.IGNORECASE`). -/
def litCI (s : String) : MPat := fun k prev rest =>
  litGo (fun r c => r.toLower = c.toLower) k s.toList prev rest

/-- Single character from a class. -/
def clsOne (cl : Char → Bool) : MPat := fun k _ rest =>
  match rest with
  | [] => none
  | ch :: rs => if cl ch then (k (some ch) rs).map (· + 1) else none

/-- Greedy `cl+` with backtracking: longest first, at least one. -/
def clsPlusGo (cl : Char → Bool) (k : MCont) : Option Char → List Char → Option Nat
  | _, [] => none
  | _, ch :: rest =>
      if cl ch then
        match clsPlusGo cl k (some ch) rest with
        | some n => some (n + 1)
        | none => (k (some ch) rest).map (· + 1)
      else none

/-- Greedy one-or-more repetition of a character class. -/
def clsPlus (cl : Char → Bool) : MPat := fun k => clsPlusGo cl k

/-- Greedy `cl*` with backtracking: longest first, possibly empty. -/
def clsStarGo (cl : Char → Bool) (k : MCont) : Option Char → List Char → Option Nat
  | prev, [] => k prev []
  | prev, ch :: rest =>
      if cl ch then
        match clsStarGo cl k (some ch) rest with
        | some n => some (n + 1)
        | none => k prev (ch :: rest)
      else k prev (ch :: rest)

/-- Greedy zero-or-more repetition of a character class. -/
def clsStar (cl : Char → Bool) : MPat := fun k => clsStarGo cl k

/-- Leftmost-first alternation with full backtracking. -/
def altP : List MPat → MPat
  | [] => fun _ _ _ => none
  | p :: ps => fun k prev rest => p k prev rest <|> altP ps k prev rest

/-- Sequencing of pattern pieces. -/
def seqP : List MPat → MPat
  | [] => id
  | p :: ps => fun k => p (seqP ps k)

/-- Greedy `p?`: try with, then without. -/
def optP (p : MPat) : MPat := fun k prev rest =>
  p k prev rest <|> k prev rest

/-- Greedy `p*` for a group, fuelled by the remaining text length (every
iteration of the groups appearing in the source consumes at least one
character, so the fuel never runs out). -/
def grpStarGo (body : MPat) : Nat → MPat
  | 0 => fun k prev rest => k prev rest
  | fuel + 1 => fun k prev rest =>
      body (fun prev2 rest2 =>
          if rest2.length < rest.length then grpStarGo body fuel k prev2 rest2
          else none)
        prev rest <|> k prev rest

/-- Greedy zero-or-more repetition of a group. -/
def grpStar (body : MPat) : MPat := fun k prev rest =>
  grpStarGo body (rest.length + 1) k prev rest

/-- Greedy `body{0,3}` (Python bounded repetition, longest first). -/
def rep03 (body : MPat) : MPat :=
  optP (seqP [body, optP (seqP [body, optP body])])

/-- Try to match the whole pattern at the current position; return the
number of characters consumed. -/
def runMPat (p : MPat) (prev : Option Char) (rest : List Char) : Option Nat :=
  p acceptK prev rest

/-- Python `re.finditer`: non-overlapping matches scanning left to right;
returns `(start, length)` pairs.  Structural recursion on a fuel that
dominates the remaining length (each step consumes at least one
character, so the fuel never runs out when started at `length + 1`). -/
def finditerStep (p : MPat)
    (recur : Option Char → Nat → List Char → List (Nat × Nat))
    (prev : Option Char) (pos : Nat) (rest : List Char) : List (Nat × Nat) :=
  match runMPat p prev rest with
  | some n =>
    match rest with
    | [] => [(pos, n)]
    | c :: rs =>
        (pos, n) ::
          recur ((c :: rs).get? (max n 1 - 1)) (pos + max n 1)
            ((c :: rs).drop (max n 1))
  | none =>
    match rest with
    | [] => []
    | c :: rs => recur (some c) (pos + 1) rs

def finditerFuel (p : MPat) : Nat → Option Char → Nat → List Char →
    List (Nat × Nat)
  | 0, _, _, _ => []
  | fuel + 1, prev, pos, rest => finditerStep p (finditerFuel p fuel) prev pos rest

/-- All matches of `p` in `text` as `(start, length)` pairs. -/
def finditer (p : MPat) (text : List Char) : List (Nat × Nat) :=
  finditerFuel p (text.length + 1) none 0 text

/-- Number of non-overlapping matches of `p` in `text`. -/
def countMatches (p : MPat) (text : List Char) : Nat :=
  (finditer p text).length

/-- Python `re.search` truthiness: at least one match exists. -/
def hasMatch (p : MPat) (text : List Char) : Bool :=
  countMatches p text ≠ 0

/-! ### `find_max_number.py`: unit patterns and multiplier detection -/

/-- Python `\s+`. -/
def sPlus : MPat := clsPlus isPySpace

/-- Qualifier group
`(all|these|the|values|figures|amounts|numbers|totals|budgets?|costs?)`. -/
def qualGroup : MPat :=
  altP [litCI ("all"), litCI ("these"), litCI ("the"), litCI ("values"),
    litCI ("figures"), litCI ("amounts"), litCI ("numbers"), litCI ("totals"),
    seqP [litCI ("budget"), optP (litCI ("s"))],
    seqP [litCI ("cost"), optP (litCI ("s"))]]

/-- Verb group
`(?:are|is|in|listed|stated|shown|expressed|reported|presented)`. -/
def verbGroup : MPat :=
  altP [litCI ("are"), litCI ("is"), litCI ("in"), litCI ("listed"),
    litCI ("stated"), litCI ("shown"), litCI ("expressed"),
    litCI ("reported"), litCI ("presented")]

/-- Group `(?:in|as)`. -/
def inAsGroup : MPat := altP [litCI ("in"), litCI ("as")]

/-- Phrase pattern
`\b(qualifiers)\s+(verbs)\s+(?:in|as)\s+UNITs?\b` for a unit word. -/
def unitPhraseA (unitWord : String) : MPat :=
  seqP [wb, qualGroup, sPlus, verbGroup, sPlus, inAsGroup, sPlus,
    litCI unitWord, optP (litCI ("s")), wb]

/-- Phrase pattern `\b(?:in|as)\s+UNITs?\s+(?:of\s+dollars?)?\b`. -/
def unitPhraseB (unitWord : String) : MPat :=
  seqP [wb, inAsGroup, sPlus, litCI unitWord, optP (litCI ("s")), sPlus,
    optP (seqP [litCI ("of"), sPlus, litCI ("dollar"), optP (litCI ("s"))]), wb]

/-- Symbol pattern `\$X\b` (case-insensitive). -/
def dollarLetter (letter : String) : MPat :=
  seqP [litCI ("$"), litCI letter, wb]

/-- Symbol pattern `\bX\$\b` (case-insensitive). -/
def letterDollar (letter : String) : MPat :=
  seqP [wb, litCI letter, litCI ("$"), wb]

/-- One entry of `UNIT_PATTERNS`: the compiled matcher, the regex source
string (used by the code for the qualifier-bonus test), and the multiplier. -/
structure UnitPattern where
  source : String
  matcher : MPat
  multiplier : ℚ

/-- The fixed `UNIT_PATTERNS` table: millions, billions, thousands family,
in source order. -/
def UNIT_PATTERNS : List UnitPattern :=
  [⟨"\\b(all|these|the|values|figures|amounts|numbers|totals|budgets?|costs?)\\s+(?:are|is|in|listed|stated|shown|expressed|reported|presented)\\s+(?:in|as)\\s+millions?\\b",
    unitPhraseA ("million"), 10 ^ 6⟩,
   ⟨"\\b(?:in|as)\\s+millions?\\s+(?:of\\s+dollars?)?\\b",
    unitPhraseB ("million"), 10 ^ 6⟩,
   ⟨"\\$M\\b", dollarLetter ("M"), 10 ^ 6⟩,
   ⟨"\\bM\\$\\b", letterDollar ("M"), 10 ^ 6⟩,
   ⟨"\\b(all|these|the|values|figures|amounts|numbers|totals|budgets?|costs?)\\s+(?:are|is|in|listed|stated|shown|expressed|reported|presented)\\s+(?:in|as)\\s+billions?\\b",
    unitPhraseA ("billion"), 10 ^ 9⟩,
   ⟨"\\b(?:in|as)\\s+billions?\\s+(?:of\\s+dollars?)?\\b",
    unitPhraseB ("billion"), 10 ^ 9⟩,
   ⟨"\\$B\\b", dollarLetter ("B"), 10 ^ 9⟩,
   ⟨"\\bB\\$\\b", letterDollar ("B"), 10 ^ 9⟩,
   ⟨"\\b(all|these|the|values|figures|amounts|numbers|totals|budgets?|costs?)\\s+(?:are|is|in|listed|stated|shown|expressed|reported|presented)\\s+(?:in|as)\\s+thousands?\\b",
    unitPhraseA ("thousand"), 10 ^ 3⟩,
   ⟨"\\b(?:in|as)\\s+thousands?\\s+(?:of\\s+dollars?)?\\b",
    unitPhraseB ("thousand"), 10 ^ 3⟩,
   ⟨"\\$K\\b", dollarLetter ("K"), 10 ^ 3⟩,
   ⟨"\\bK\\$\\b", letterDollar ("K"), 10 ^ 3⟩]

/-- The qualifier-bonus test of the source:
`'all' in pattern.pattern or 'these' in pattern.pattern`. -/
def hasQualifierBonus (p : UnitPattern) : Bool :=
  isSubstrOf (String.toList ("all")) p.source.toList ||
    isSubstrOf (String.toList ("these")) p.source.toList

/-- One iteration of the `detect_unit_multiplier` loop: `acc` is the pair
`(best_multiplier, max_confidence)`. -/
def detectStep (text : List Char) (acc : ℚ × ℚ) (pm : UnitPattern) : ℚ × ℚ :=
  let ms := finditer pm.matcher text
  if ms.length ≠ 0 then
    let confidence := min 1.0 ((ms.length : ℚ) * 0.3)
    let confidence :=
      if hasQualifierBonus pm then confidence + 0.2 else confidence
    if confidence > acc.2 then (pm.multiplier, confidence) else acc
  else acc

/-- `detect_unit_multiplier(text)` — returns `(multiplier, confidence)`.
Direct translation of the source loop over `UNIT_PATTERNS`. -/
def detect_unit_multiplier (text : List Char) : ℚ × ℚ :=
  UNIT_PATTERNS.foldl (detectStep text) (1.0, 0.0)

/-! ### `find_max_number.py`: number scanning and ranking -/

/-- A decimal digit. -/
def dg : MPat := clsOne Char.isDigit

/-- `\d{1,3}` (greedy, with backtracking). -/
def dUpTo3 : MPat := altP [seqP [dg, dg, dg], seqP [dg, dg], dg]

/-- One comma group `(?:,\d{3})`. -/
def commaGroup : MPat := seqP [litCS (","), dg, dg, dg]

/-- `NUMBER_RE = \b\d{1,3}(?:,\d{3})*(?:\.\d+)?\b`. -/
def NUMBER_RE : MPat :=
  seqP [wb, dUpTo3, grpStar commaGroup,
    optP (seqP [litCS ("."), clsPlus Char.isDigit]), wb]

/-- Value of a decimal digit character. -/
def digitVal (c : Char) : Nat := c.toNat - 48

/-- Natural number denoted by a digit string. -/
def digitsToNat (l : List Char) : Nat :=
  l.foldl (fun a c => a * 10 + digitVal c) 0

/-- Python `float(raw.replace(',', ''))` for an unsigned decimal literal,
idealised as an exact rational. -/
def parseNumber (s : List Char) : ℚ :=
  let t := s.filter (fun c => c ≠ ',')
  let ip := t.takeWhile (fun c => c ≠ '.')
  let fp := (t.dropWhile (fun c => c ≠ '.')).drop 1
  (digitsToNat ip : ℚ) + (digitsToNat fp : ℚ) / (10 : ℚ) ^ fp.length

/-- Python `float` on a possibly negative literal. -/
def parseSigned (s : List Char) : ℚ :=
  match s with
  | '-' :: rest => -(parseNumber rest)
  | _ => parseNumber s

/-- `NumberContext` dataclass of `find_max_number.py`. -/
structure NumberContext where
  value : ℚ
  raw_text : List Char
  page_num : Nat
  context : List Char
  multiplier : ℚ
  confidence : ℚ
deriving DecidableEq

/-- `get_context(text, position, window=100)`. -/
def get_context (text : List Char) (position : Nat) (window : Nat := 100) :
    List Char :=
  pyStrip (pySlice text (position - window)
    (min text.length (position + window)))

/-- The per-page body of `find_numbers_in_pdf`: detect the page-local
multiplier, resolve against the document-global candidate `base`, scan the
page with `NUMBER_RE` and build one `NumberContext` per match. -/
def page_numbers (base : ℚ × ℚ) (page_num : Nat) (page_text : List Char) :
    List NumberContext :=
  let pagePair := detect_unit_multiplier page_text
  let multiplier := if pagePair.2 > base.2 then pagePair.1 else base.1
  let confidence := max pagePair.2 base.2
  (finditer NUMBER_RE page_text).map (fun m =>
    let raw := pySlice page_text m.1 (m.1 + m.2)
    let value := parseNumber raw
    let value := if confidence > 0.3 then value * multiplier else value
    { value := value, raw_text := raw, page_num := page_num,
      context := get_context page_text m.1, multiplier := multiplier,
      confidence := confidence })

/-- The whole-document text: `"\n".join(text for _, text in text_by_page)`. -/
def full_text (pages : List (List Char)) : List Char :=
  List.intercalate ['\n'] pages

/-- Descending order on scaled value; `valGe a b` states that `a` may come
before `b` in the ranking. -/
def valGe (a b : NumberContext) : Prop := b.value ≤ a.value

instance : DecidableRel valGe := fun a b =>
  inferInstanceAs (Decidable (b.value ≤ a.value))

instance : IsTotal NumberContext valGe :=
  ⟨fun a b => (le_total b.value a.value)⟩

instance : IsTrans NumberContext valGe :=
  ⟨fun _ _ _ hab hbc => le_trans hbc hab⟩

/-- All numbers of the document with context and resolved multipliers, in
scan order (the `numbers_found` list of the source). -/
def scan_numbers (pages : List (List Char)) : List NumberContext :=
  let base := detect_unit_multiplier (full_text pages)
  pages.enum.flatMap (fun pg => page_numbers base (pg.1 + 1) pg.2)

/-- `find_numbers_in_pdf(path, top_n=5)` modulo PDF text extraction: the
input is the list of per-page texts.  Sorting is by scaled value,
descending, stable (Python `sorted(..., reverse=True)`), then the first
`top_n` entries are kept. -/
def find_numbers_in_pdf (pages : List (List Char)) (top_n : Nat := 5) :
    List NumberContext :=
  (List.insertionSort valGe (scan_numbers pages)).take top_n

/-! ### `pdf_number_parser.py` -/

namespace PDFNumberParser

/-- The `unit_multipliers` dictionary, in insertion order. -/
def unit_multipliers : List (String × ℚ) :=
  [("trillion", 10 ^ 12), ("billion", 10 ^ 9), ("million", 10 ^ 6),
   ("thousand", 10 ^ 3), ("t", 10 ^ 12), ("b", 10 ^ 9), ("m", 10 ^ 6),
   ("k", 10 ^ 3)]

/-- `is_likely_code`: a letter immediately before or after the span. -/
def is_likely_code (text : List Char) (s e : Nat) : Bool :=
  (decide (0 < s) && (text.getD (s - 1) ' ').isAlpha) ||
    (decide (e < text.length) && (text.getD e ' ').isAlpha)

/-- `detect_global_multiplier`: document-wide multiplier from headers. -/
def detect_global_multiplier (text : List Char) : ℚ :=
  let lower := pyLower text
  if isSubstrOf (String.toList ("dollars in millions")) lower ||
      isSubstrOf (String.toList ("( $m)")) lower then 10 ^ 6
  else if isSubstrOf (String.toList ("dollars in thousands")) lower ||
      isSubstrOf (String.toList ("( $k)")) lower then 10 ^ 3
  else 1

/-- The word pattern `\b{unit}s?\b` (compiled without `IGNORECASE`, applied
to the lowercased context). -/
def wordPat (unit : String) : MPat :=
  seqP [wb, litCS unit, optP (litCS ("s")), wb]

/-- The parenthesised pattern `\(\s*\${U}\s*\)` with `U = unit[0].upper()`
(case-sensitive, applied to the original context). -/
def parenPat (unit : String) : MPat :=
  seqP [litCS ("("), clsStar isPySpace, litCS ("$"),
    litCS (String.mk [(unit.toList.headD ' ').toUpper]), clsStar isPySpace,
    litCS (")")]

/-- `detect_local_multiplier(context)`: first dictionary entry whose word
pattern matches the lowercased context or whose parenthesised symbol
matches the context. -/
def detect_local_multiplier (context : List Char) : ℚ :=
  let lc := pyLower context
  match unit_multipliers.find?
      (fun u => hasMatch (wordPat u.1) lc || hasMatch (parenPat u.1) context) with
  | some u => u.2
  | none => 1

/-- The number pattern `-?\d{1,3}(?:,\d{3}){0,3}\.\d+`. -/
def numPat : MPat :=
  seqP [optP (litCS ("-")), dUpTo3, rep03 commaGroup, litCS ("."),
    clsPlus Char.isDigit]

/-- The filtering pipeline of `find_largest_numbers`: every regex match that
is not code-like, is at most `1e13`, and sits in budget-related context;
each survivor is `(raw value, start, end)`. -/
def candidate_numbers (text : List Char) : List (ℚ × Nat × Nat) :=
  (finditer numPat text).filterMap (fun m =>
    let s := m.1
    let e := m.1 + m.2
    if is_likely_code text s e then none
    else
      let raw_val := parseSigned ((pySlice text s e).filter (fun c => c ≠ ','))
      if raw_val > 10 ^ 13 then none
      else
        let context := pySlice text (s - 100) (min text.length (e + 100))
        if [("budget" : String), "dollars", "fund", "million", "thousand",
            "revenue", "expense", "total"].any
            (fun kw => isSubstrOf kw.toList (pyLower context)) then
          some (raw_val, s, e)
        else none)

/-- Python `max(numbers, key=lambda x: x[0])`: the first entry attaining
the maximal raw value. -/
def max_by_fst (c : ℚ × Nat × Nat) (cs : List (ℚ × Nat × Nat)) : ℚ × Nat × Nat :=
  cs.foldl (fun best x => if x.1 > best.1 then x else best) c

/-- The ±1000-character window around the winning match, with newlines
replaced by spaces (the `context` of `find_largest_numbers`). -/
def wide_context (text : List Char) (s e : Nat) : List Char :=
  (pySlice text (s - 1000) (min text.length (e + 1000))).map
    (fun ch => if ch = '\n' then ' ' else ch)

/-- `find_largest_numbers(path)` modulo PDF text extraction: `none` models
the `ValueError` raised when no candidate survives filtering; otherwise the
largest raw value adjusted by the global and local multipliers is returned
with its wide context. -/
def find_largest_numbers (text : List Char) : Option (ℚ × List Char) :=
  match candidate_numbers text with
  | [] => none
  | c :: cs =>
    let largest := max_by_fst c cs
    let context := wide_context text largest.2.1 largest.2.2
    some (largest.1 * detect_global_multiplier text *
      detect_local_multiplier context, pyStrip context)

/-- The CLI `main`: exit code 1 when `find_largest_numbers` raises, 0 on
success. -/
def main_exit_code (text : List Char) : Nat :=
  match find_largest_numbers text with
  | none => 1
  | some _ => 0

end PDFNumberParser

/-! ### Specification-side description of the multiplier detector -/

/-- The confidence a single rule contributes on `text`, following the
specification: `min(1.0, occurrences × 0.3)`, plus `0.2` when the rule's
pattern carries a strong qualifier; `0` when the rule does not match. -/
def ruleConf (text : List Char) (p : UnitPattern) : ℚ :=
  if countMatches p.matcher text = 0 then 0
  else
    let confidence := min 1.0 ((countMatches p.matcher text : ℚ) * 0.3)
    if hasQualifierBonus p then confidence + 0.2 else confidence

/-- Modelled from the spec's words: the candidate returned is the first
rule, in the fixed priority order of `UNIT_PATTERNS`, whose confidence is
positive and maximal among all rules; `(1, 0)` when no rule matches. -/
def specBest (text : List Char) : ℚ × ℚ :=
  match UNIT_PATTERNS.find? (fun p =>
      decide (0 < ruleConf text p) &&
        UNIT_PATTERNS.all (fun q => decide (ruleConf text q ≤ ruleConf text p))) with
  | some p => (p.multiplier, ruleConf text p)
  | none => (1, 0)

/-- One step of the detector loop, abstracted: replace the accumulator only
on strictly larger confidence. -/
def stepFn {α : Type} (f d : α → ℚ) (acc : ℚ × ℚ) (x : α) : ℚ × ℚ :=
  if f x > acc.2 then (d x, f x) else acc

/-! ### Concrete sample inputs -/

def exText1 : List Char :=
  String.toList ("these are in millions these are in millions these are in millions")

def exText2 : List Char := String.toList ("in millions of dollars 7")

def exText3 : List Char :=
  String.toList ("dollars in millions budget total 5.5 trillion")

def exText4 : List Char := String.toList ("total 5.5")

def exPage78 : List Char := String.toList ("7 8")

/-- The single entry produced by `find_numbers_in_pdf` on `exText2`. -/
def exC3entry : NumberContext := ⟨7, ['7'], 1, exText2, 10 ^ 6, 3 / 10⟩

def exE7 : NumberContext := ⟨7, ['7'], 1, exPage78, 1, 0⟩

def exE8 : NumberContext := ⟨8, ['8'], 1, exPage78, 1, 0⟩

/-- The second entry of `UNIT_PATTERNS` (the bare `in millions` phrase),
which carries no qualifier bonus. -/
def inMillionsRule : UnitPattern :=
  ⟨"\\b(?:in|as)\\s+millions?\\s+(?:of\\s+dollars?)?\\b",
    unitPhraseB ("million"), 10 ^ 6⟩

theorem q_one : (1.0 : ℚ) = 1 := by norm_num

theorem q_zero : (0.0 : ℚ) = 0 := by norm_num

theorem q_threeTenths : (0.3 : ℚ) = 3 / 10 := by norm_num

theorem q_oneFifth : (0.2 : ℚ) = 1 / 5 := by norm_num

theorem ruleConf_nonneg (text : List Char) (p : UnitPattern) :
    0 ≤ ruleConf text p := by
  unfold ruleConf
  split
  · exact le_refl 0
  · have h1 : (0 : ℚ) ≤ min 1.0 ((countMatches p.matcher text : ℚ) * 0.3) := by
      apply le_min
      · norm_num
      · positivity
    dsimp only
    split
    · linarith
    · exact h1

theorem ruleConf_of_matched (text : List Char) (p : UnitPattern)
    (h : countMatches p.matcher text ≠ 0) : 3 / 10 ≤ ruleConf text p := by
  unfold ruleConf
  rw [if_neg h]
  have h1 : (1 : ℚ) ≤ (countMatches p.matcher text : ℚ) := by
    exact_mod_cast Nat.one_le_iff_ne_zero.mpr h
  have h2 : (3 / 10 : ℚ) ≤ min 1.0 ((countMatches p.matcher text : ℚ) * 0.3) := by
    apply le_min
    · norm_num
    · rw [q_threeTenths]
      nlinarith
  dsimp only
  split
  · linarith
  · exact h2

/-! ### A strict-improvement fold computes the first maximal element -/

section ArgMax

variable {α : Type}

theorem find?_congr_on (p q : α → Bool) :
    ∀ (l : List α), (∀ x ∈ l, p x = q x) → l.find? p = l.find? q := by
  intro l
  induction l with
  | nil => intro _; rfl
  | cons a t ih =>
      intro h
      have ha := h a (List.mem_cons_self a t)
      by_cases hpa : p a = true
      · rw [List.find?_cons_of_pos _ hpa, List.find?_cons_of_pos _ (ha ▸ hpa)]
      · have hpa' : p a = false := Bool.eq_false_iff.mpr hpa
        rw [List.find?_cons_of_neg _ (by simp [hpa']),
          List.find?_cons_of_neg _ (by simp [← ha, hpa'])]
        exact ih (fun x hx => h x (List.mem_cons_of_mem a hx))

theorem exists_list_max (f : α → ℚ) :
    ∀ (l : List α), l ≠ [] → ∃ z ∈ l, ∀ y ∈ l, f y ≤ f z := by
  intro l
  induction l with
  | nil => intro h; exact absurd rfl h
  | cons a t ih =>
      intro _
      rcases eq_or_ne t [] with rfl | ht
      · exact ⟨a, List.mem_cons_self a [], by
          intro y hy
          rcases List.mem_singleton.mp hy with rfl
          exact le_refl _⟩
      · obtain ⟨z, hz, hmax⟩ := ih ht
        by_cases hle : f z ≤ f a
        · refine ⟨a, List.mem_cons_self a t, ?_⟩
          intro y hy
          rcases List.mem_cons.mp hy with rfl | hy
          · exact le_refl _
          · exact le_trans (hmax y hy) hle
        · refine ⟨z, List.mem_cons_of_mem a hz, ?_⟩
          intro y hy
          rcases List.mem_cons.mp hy with rfl | hy
          · exact le_of_not_le hle
          · exact hmax y hy

theorem foldl_stepFn_eq_find (f d : α → ℚ) :
    ∀ (l : List α) (acc : ℚ × ℚ), 0 ≤ acc.2 →
      l.foldl (stepFn f d) acc =
        match l.find? (fun x => decide (acc.2 < f x) &&
            l.all (fun y => decide (f y ≤ f x))) with
        | some x => (d x, f x)
        | none => acc := by
  intro l
  induction l with
  | nil => intro acc _; rfl
  | cons a t ih =>
      intro acc hacc
      rw [List.foldl_cons]
      by_cases ha : acc.2 < f a
      · have hstep : stepFn f d acc a = (d a, f a) := if_pos ha
        rw [hstep]
        have hfa : (0 : ℚ) ≤ f a := le_of_lt (lt_of_le_of_lt hacc ha)
        rw [ih (d a, f a) hfa]
        by_cases hall : ∀ y ∈ t, f y ≤ f a
        · have hpa : (decide (acc.2 < f a) &&
              (a :: t).all (fun y => decide (f y ≤ f a))) = true := by
            simp only [Bool.and_eq_true, decide_eq_true_eq, List.all_cons,
              List.all_eq_true, decide_eq_true_eq]
            exact ⟨ha, le_refl _, fun y hy => hall y hy⟩
          have hfind : List.find? (fun x => decide (acc.2 < f x) &&
              (a :: t).all (fun y => decide (f y ≤ f x))) (a :: t) = some a :=
            List.find?_cons_of_pos t hpa
          rw [hfind]
          have hnone : List.find? (fun x => decide ((d a, f a).2 < f x) &&
              t.all (fun y => decide (f y ≤ f x))) t = none := by
            rw [List.find?_eq_none]
            intro x hx
            simp only [Bool.and_eq_true, decide_eq_true_eq, not_and]
            intro hlt
            exact absurd (hall x hx) (not_le.mpr hlt)
          rw [hnone]
        · push_neg at hall
          obtain ⟨y0, hy0, hy0f⟩ := hall
          have hpa : ¬ ((fun x => decide (acc.2 < f x) &&
              (a :: t).all (fun y => decide (f y ≤ f x))) a = true) := by
            simp only [Bool.and_eq_true, decide_eq_true_eq, List.all_cons,
              List.all_eq_true, decide_eq_true_eq]
            push_neg
            intro _ _
            exact ⟨y0, hy0, hy0f⟩
          have hfind : List.find? (fun x => decide (acc.2 < f x) &&
                (a :: t).all (fun y => decide (f y ≤ f x))) (a :: t) =
              List.find? (fun x => decide (acc.2 < f x) &&
                (a :: t).all (fun y => decide (f y ≤ f x))) t :=
            List.find?_cons_of_neg t hpa
          rw [hfind]
          have hcongr : List.find? (fun x => decide ((d a, f a).2 < f x) &&
                t.all (fun y => decide (f y ≤ f x))) t =
              List.find? (fun x => decide (acc.2 < f x) &&
                (a :: t).all (fun y => decide (f y ≤ f x))) t := by
            apply find?_congr_on
            intro x hx
            by_cases hmx : ∀ y ∈ t, f y ≤ f x
            · have h1 : f a < f x := lt_of_lt_of_le hy0f (hmx y0 hy0)
              have h2 : acc.2 < f x := lt_trans ha h1
              simp only [List.all_cons, Bool.and_eq_true, decide_eq_true_eq,
                List.all_eq_true]
              simp [h1, h2, h1.le, fun y hy => hmx y hy]
            · have hx1 : (t.all (fun y => decide (f y ≤ f x))) = false := by
                apply List.all_eq_false.mpr
                push_neg at hmx
                obtain ⟨y, hy1, hy2⟩ := hmx
                exact ⟨y, hy1, by simpa using not_le.mpr hy2⟩
              simp [List.all_cons, hx1]
          rw [hcongr]
          have ht : t ≠ [] := List.ne_nil_of_mem hy0
          obtain ⟨z, hz, hzmax⟩ := exists_list_max f t ht
          have hPz : (fun x => decide (acc.2 < f x) &&
              (a :: t).all (fun y => decide (f y ≤ f x))) z = true := by
            have h1 : f a < f z := lt_of_lt_of_le hy0f (hzmax y0 hy0)
            simp only [Bool.and_eq_true, decide_eq_true_eq, List.all_cons,
              List.all_eq_true, decide_eq_true_eq]
            exact ⟨lt_trans ha h1, h1.le, fun y hy => hzmax y hy⟩
          cases hfz : List.find? (fun x => decide (acc.2 < f x) &&
              (a :: t).all (fun y => decide (f y ≤ f x))) t with
          | none =>
              exact absurd hPz (List.find?_eq_none.mp hfz z hz)
          | some x => rfl
      · have hstep : stepFn f d acc a = acc := if_neg ha
        rw [hstep, ih acc hacc]
        have hpa : ¬ ((fun x => decide (acc.2 < f x) &&
            (a :: t).all (fun y => decide (f y ≤ f x))) a = true) := by
          simp only [Bool.and_eq_true, decide_eq_true_eq, not_and]
          intro hcontra
          exact absurd hcontra ha
        have hfind : List.find? (fun x => decide (acc.2 < f x) &&
              (a :: t).all (fun y => decide (f y ≤ f x))) (a :: t) =
            List.find? (fun x => decide (acc.2 < f x) &&
              (a :: t).all (fun y => decide (f y ≤ f x))) t :=
          List.find?_cons_of_neg t hpa
        rw [hfind]
        have hcongr : List.find? (fun x => decide (acc.2 < f x) &&
              t.all (fun y => decide (f y ≤ f x))) t =
            List.find? (fun x => decide (acc.2 < f x) &&
              (a :: t).all (fun y => decide (f y ≤ f x))) t := by
          apply find?_congr_on
          intro x hx
          by_cases hax : acc.2 < f x
          · have hfa2 : f a ≤ f x := le_trans (le_of_not_lt ha) (le_of_lt hax)
            simp [List.all_cons, hax, hfa2]
          · simp [hax]
        rw [hcongr]

end ArgMax

/-! ### The detector loop computes the first maximal rule -/

theorem countMatches_def (p : MPat) (text : List Char) :
    countMatches p text = (finditer p text).length := rfl

theorem detectStep_eq (text : List Char) (acc : ℚ × ℚ) (pm : UnitPattern)
    (h : 0 ≤ acc.2) :
    detectStep text acc pm = stepFn (ruleConf text) (fun p => p.multiplier) acc pm := by
  unfold detectStep stepFn ruleConf
  simp only [countMatches]
  by_cases hms : (finditer pm.matcher text).length = 0
  · rw [if_neg (not_not.mpr hms), if_pos hms, if_neg (not_lt.mpr h)]
  · rw [if_pos hms, if_neg hms]

theorem foldl_congr_inv {β γ : Type _} (g h : β → γ → β) (inv : β → Prop)
    (hgh : ∀ b a, inv b → g b a = h b a) (hinv : ∀ b a, inv b → inv (g b a)) :
    ∀ (l : List γ) (b), inv b → List.foldl g b l = List.foldl h b l := by
  intro l
  induction l with
  | nil => intro b _; rfl
  | cons a t ih =>
      intro b hb
      rw [List.foldl_cons, List.foldl_cons, ← hgh b a hb]
      exact ih (g b a) (hinv b a hb)

theorem stepFn_snd_nonneg {α : Type} (f d : α → ℚ) (hf : ∀ x, 0 ≤ f x)
    (acc : ℚ × ℚ) (x : α) (h : 0 ≤ acc.2) : 0 ≤ (stepFn f d acc x).2 := by
  unfold stepFn
  split
  · exact hf x
  · exact h

/-- The central refinement: the source loop returns exactly the first rule
(in priority order) of positive, maximal confidence. -/
theorem detect_eq_specBest (text : List Char) :
    detect_unit_multiplier text = specBest text := by
  unfold detect_unit_multiplier
  have hstep : ∀ (b : ℚ × ℚ) (a : UnitPattern), 0 ≤ b.2 →
      detectStep text b a = stepFn (ruleConf text) (fun p => p.multiplier) b a :=
    fun b a hb => detectStep_eq text b a hb
  have hinv : ∀ (b : ℚ × ℚ) (a : UnitPattern), 0 ≤ b.2 →
      0 ≤ (detectStep text b a).2 := by
    intro b a hb
    rw [hstep b a hb]
    exact stepFn_snd_nonneg _ _ (ruleConf_nonneg text) b a hb
  rw [foldl_congr_inv (detectStep text)
    (stepFn (ruleConf text) (fun p => p.multiplier)) (fun b => 0 ≤ b.2)
    hstep hinv UNIT_PATTERNS (1.0, 0.0) (by norm_num)]
  rw [foldl_stepFn_eq_find (ruleConf text) (fun p => p.multiplier)
    UNIT_PATTERNS (1.0, 0.0) (by norm_num)]
  unfold specBest
  have hcongr : UNIT_PATTERNS.find? (fun x => decide (((1.0 : ℚ), (0.0 : ℚ)).2 < ruleConf text x) &&
        UNIT_PATTERNS.all (fun y => decide (ruleConf text y ≤ ruleConf text x))) =
      UNIT_PATTERNS.find? (fun p => decide (0 < ruleConf text p) &&
        UNIT_PATTERNS.all (fun q => decide (ruleConf text q ≤ ruleConf text p))) := by
    apply find?_congr_on
    intro x _
    have h2 : decide (((1.0 : ℚ), (0.0 : ℚ)).2 < ruleConf text x) =
        decide (0 < ruleConf text x) :=
      decide_eq_decide.mpr (by norm_num)
    rw [h2]
  rw [hcongr]
  cases UNIT_PATTERNS.find? (fun p => decide (0 < ruleConf text p) &&
      UNIT_PATTERNS.all (fun q => decide (ruleConf text q ≤ ruleConf text p))) with
  | none => norm_num
  | some p => rfl

/-! ### Structural facts about the detector output and the page pipeline -/

theorem UNIT_PATTERNS_mult_pos : ∀ p ∈ UNIT_PATTERNS, (0 : ℚ) < p.multiplier := by
  intro p hp
  fin_cases hp <;> norm_num

theorem detect_multiplier_pos (text : List Char) :
    0 < (detect_unit_multiplier text).1 := by
  rw [detect_eq_specBest]
  unfold specBest
  cases hfind : UNIT_PATTERNS.find? (fun p => decide (0 < ruleConf text p) &&
      UNIT_PATTERNS.all (fun q => decide (ruleConf text q ≤ ruleConf text p))) with
  | none => norm_num
  | some p =>
      exact UNIT_PATTERNS_mult_pos p (List.mem_of_find?_eq_some hfind)

theorem detect_confidence_nonneg (text : List Char) :
    0 ≤ (detect_unit_multiplier text).2 := by
  rw [detect_eq_specBest]
  unfold specBest
  cases hfind : UNIT_PATTERNS.find? (fun p => decide (0 < ruleConf text p) &&
      UNIT_PATTERNS.all (fun q => decide (ruleConf text q ≤ ruleConf text p))) with
  | none => norm_num
  | some p => exact ruleConf_nonneg text p

/-- Every entry built for one page carries the page number, the resolved
multiplier, the effective confidence, and a value that is the parsed raw
text, scaled only when the confidence clears the gate. -/
theorem page_numbers_fields {base : ℚ × ℚ} {i : Nat} {pg : List Char}
    {e : NumberContext} (h : e ∈ page_numbers base i pg) :
    e.page_num = i ∧
    e.multiplier = (if (detect_unit_multiplier pg).2 > base.2 then
      (detect_unit_multiplier pg).1 else base.1) ∧
    e.confidence = max (detect_unit_multiplier pg).2 base.2 ∧
    e.value = (if e.confidence > 0.3 then
      parseNumber e.raw_text * e.multiplier else parseNumber e.raw_text) := by
  unfold page_numbers at h
  simp only [List.mem_map] at h
  obtain ⟨m, hm, rfl⟩ := h
  exact ⟨rfl, rfl, rfl, rfl⟩

/-- Membership in `scan_numbers` comes from a unique page. -/
theorem scan_numbers_mem {pages : List (List Char)} {e : NumberContext}
    (h : e ∈ scan_numbers pages) :
    ∃ i pg, pages.get? i = some pg ∧ e.page_num = i + 1 ∧
      e ∈ page_numbers (detect_unit_multiplier (full_text pages)) (i + 1) pg := by
  unfold scan_numbers at h
  simp only [List.mem_flatMap] at h
  obtain ⟨⟨a, b⟩, hip, he⟩ := h
  refine ⟨a, b, ?_, ?_, he⟩
  · rw [List.get?_eq_getElem?]
    exact List.mk_mem_enum_iff_getElem?.mp hip
  · exact (page_numbers_fields he).1

/-- Entries of `scan_numbers` carrying page number `i + 1` come from page
`i` (page numbers identify pages uniquely). -/
theorem scan_numbers_page {pages : List (List Char)} {i : Nat}
    {pg : List Char} {e : NumberContext} (hpg : pages.get? i = some pg)
    (he : e ∈ scan_numbers pages) (hnum : e.page_num = i + 1) :
    e ∈ page_numbers (detect_unit_multiplier (full_text pages)) (i + 1) pg := by
  obtain ⟨j, pg', hj, hjnum, hmem⟩ := scan_numbers_mem he
  have hij : j = i := by omega
  subst hij
  have : pg' = pg := by
    rw [hj] at hpg
    exact Option.some.inj hpg
  subst this
  exact hmem

/-- The ranked output is drawn from the scanned numbers. -/
theorem mem_scan_of_mem_output {pages : List (List Char)} {top_n : Nat}
    {e : NumberContext} (h : e ∈ find_numbers_in_pdf pages top_n) :
    e ∈ scan_numbers pages := by
  unfold find_numbers_in_pdf at h
  exact (List.perm_insertionSort valGe (scan_numbers pages)).subset
    (List.take_subset _ _ h)

/-- Inserting into the stable descending sort commutes with filtering by an
exact value: the walked-over entries are strictly larger. -/
theorem filter_orderedInsert_value (q : ℚ) (x : NumberContext) :
    ∀ (l : List NumberContext),
      (List.orderedInsert valGe x l).filter (fun e => e.value = q) =
        if x.value = q then x :: l.filter (fun e => e.value = q)
        else l.filter (fun e => e.value = q) := by
  intro l
  induction l with
  | nil =>
      by_cases hx : x.value = q <;> simp [List.orderedInsert, List.filter, hx]
  | cons y ys ih =>
      by_cases hxy : valGe x y
      · rw [show List.orderedInsert valGe x (y :: ys) = x :: y :: ys from
          if_pos hxy]
        by_cases hx : x.value = q <;> simp [List.filter_cons, hx]
      · have hxy' : x.value < y.value := lt_of_not_le hxy
        rw [show List.orderedInsert valGe x (y :: ys) =
            y :: List.orderedInsert valGe x ys from if_neg hxy]
        rw [List.filter_cons, List.filter_cons, ih]
        by_cases hx : x.value = q
        · have hy : ¬ (y.value = q) := by
            intro hcontra
            rw [hx] at hxy'
            rw [hcontra] at hxy'
            exact lt_irrefl q hxy'
          simp [hx, hy]
        · simp [hx]

/-- The stable sort preserves the subsequence of entries having any given
scaled value. -/
theorem filter_insertionSort_value (q : ℚ) :
    ∀ (l : List NumberContext),
      (List.insertionSort valGe l).filter (fun e => e.value = q) =
        l.filter (fun e => e.value = q) := by
  intro l
  induction l with
  | nil => rfl
  | cons a t ih =>
      rw [show List.insertionSort valGe (a :: t) =
          List.orderedInsert valGe a (List.insertionSort valGe t) from rfl]
      rw [filter_orderedInsert_value, ih, List.filter_cons]
      by_cases ha : a.value = q <;> simp [ha]

/-! ### Auxiliary facts for the claims about multiplier membership -/

theorem UNIT_PATTERNS_mult_mem : ∀ p ∈ UNIT_PATTERNS,
    p.multiplier ∈ ([1, 10 ^ 3, 10 ^ 6, 10 ^ 9] : List ℚ) := by
  intro p hp
  unfold UNIT_PATTERNS at hp
  simp only [List.mem_cons, List.not_mem_nil, or_false] at hp
  rcases hp with rfl | rfl | rfl | rfl | rfl | rfl | rfl | rfl | rfl | rfl |
    rfl | rfl <;> simp only [List.mem_cons] <;> norm_num

theorem detect_mult_mem (text : List Char) :
    (detect_unit_multiplier text).1 ∈ ([1, 10 ^ 3, 10 ^ 6, 10 ^ 9] : List ℚ) := by
  rw [detect_eq_specBest]
  simp only [specBest]
  cases hfind : UNIT_PATTERNS.find? (fun p => decide (0 < ruleConf text p) &&
      UNIT_PATTERNS.all (fun q => decide (ruleConf text q ≤ ruleConf text p))) with
  | none => exact List.mem_cons_self _ _
  | some p => exact UNIT_PATTERNS_mult_mem p (List.mem_of_find?_eq_some hfind)

theorem max_by_fst_mem (c : ℚ × Nat × Nat) :
    ∀ cs : List (ℚ × Nat × Nat), PDFNumberParser.max_by_fst c cs ∈ c :: cs := by
  unfold PDFNumberParser.max_by_fst
  intro cs
  induction cs generalizing c with
  | nil => exact List.mem_singleton.mpr rfl
  | cons a t ih =>
      rw [List.foldl_cons]
      rcases List.mem_cons.mp (ih (if a.1 > c.1 then a else c)) with h | h
      · rw [h]
        split
        · exact List.mem_cons_of_mem c (List.mem_cons_self a t)
        · exact List.mem_cons_self c (a :: t)
      · exact List.mem_cons_of_mem c (List.mem_cons_of_mem a h)

theorem detect_global_mem (text : List Char) :
    PDFNumberParser.detect_global_multiplier text ∈ ([1, 10 ^ 3, 10 ^ 6] : List ℚ) := by
  simp only [PDFNumberParser.detect_global_multiplier]
  split_ifs <;> simp only [List.mem_cons] <;> norm_num

theorem detect_local_mem (context : List Char) :
    PDFNumberParser.detect_local_multiplier context ∈
      ([1, 10 ^ 3, 10 ^ 6, 10 ^ 9, 10 ^ 12] : List ℚ) := by
  simp only [PDFNumberParser.detect_local_multiplier]
  cases hfind : PDFNumberParser.unit_multipliers.find?
      (fun u => hasMatch (PDFNumberParser.wordPat u.1) (pyLower context) ||
        hasMatch (PDFNumberParser.parenPat u.1) context) with
  | none => exact List.mem_cons_self _ _
  | some u =>
      show u.2 ∈ _
      have hu := List.mem_of_find?_eq_some hfind
      simp only [PDFNumberParser.unit_multipliers, List.mem_cons,
        List.not_mem_nil, or_false] at hu
      rcases hu with rfl | rfl | rfl | rfl | rfl | rfl | rfl | rfl <;>
        simp only [List.mem_cons] <;> norm_num

/-! ### Claim theorems -/

/-- C1: for every input text, `detect_unit_multiplier` returns the
multiplier of the highest-confidence matching rule — where a rule's
confidence is `min(1.0, occurrences × 0.3)` plus a `0.2` bonus when its
pattern contains the qualifiers `all` or `these` (this is `ruleConf`) —
with rules evaluated in the fixed priority order of `UNIT_PATTERNS`
(millions, billions, thousands family) and ties kept by the first-seen
rule: the result equals the first rule of positive maximal confidence. -/
theorem C1_first_maximal_rule (text : List Char) :
    detect_unit_multiplier text = specBest text :=
  detect_eq_specBest text

/-- C2: the claim that the returned confidence always lies in `[0, 1]` is
violated by the code: on a text with three occurrences of a qualifier
pattern the bonus is added after the `min`, giving confidence `1.1`.  This
contradicts the function's own docstring ("Confidence is a value between
0 and 1"), so the code, not the claim, is wrong. -/
theorem C2_confidence_above_one :
    (detect_unit_multiplier exText1).2 = 11 / 10 ∧
      ¬ ((detect_unit_multiplier exText1).2 ≤ 1) := by
  decide

/-- C3 (counterexample): on `exText2` the effective confidence is exactly
`0.3`, so the multiplier is not applied — but the number is reported with
the detected multiplier `10^6`, not with multiplier `1` as claimed. -/
theorem C3_counterexample :
    (find_numbers_in_pdf [exText2] 5).map
        (fun e => (e.value, e.multiplier, e.confidence)) =
      [((7 : ℚ), 1000000, 3 / 10)] ∧ ((1000000 : ℚ)) ≠ 1 := by
  decide

/-- C3 (amended): the multiplier is applied to the raw parsed value exactly
when the effective confidence strictly exceeds `0.3`; at or below the
threshold the value equals the raw parsed value, and the entry is reported
with the resolved multiplier (which need not be `1`) and the computed
confidence. -/
theorem C3_gate_strict {pages : List (List Char)} {top_n : Nat}
    {e : NumberContext} (h : e ∈ find_numbers_in_pdf pages top_n) :
    (3 / 10 < e.confidence → e.value = parseNumber e.raw_text * e.multiplier) ∧
    (e.confidence ≤ 3 / 10 → e.value = parseNumber e.raw_text) := by
  obtain ⟨i, pg, hpg, hnum, hmem⟩ := scan_numbers_mem (mem_scan_of_mem_output h)
  obtain ⟨_, _, _, hv⟩ := page_numbers_fields hmem
  constructor
  · intro hgt
    exact hv.trans (if_pos (by rw [q_threeTenths]; exact hgt))
  · intro hle
    exact hv.trans (if_neg (by rw [q_threeTenths]; exact not_lt.mpr hle))

/-- C3 (witness): the theorem applied to the concrete document `exText2`. -/
theorem C3_witness :
    exC3entry ∈ find_numbers_in_pdf [exText2] 5 ∧
      exC3entry.confidence ≤ 3 / 10 ∧
      exC3entry.value = parseNumber exC3entry.raw_text := by
  refine ⟨by decide, by decide, ?_⟩
  exact (@C3_gate_strict [exText2] 5 exC3entry (by decide)).2 (by decide)

/-- C4: for every document, the page-local multiplier is used only when
the page-local confidence strictly exceeds the document-global confidence,
otherwise the document-global multiplier is used; the effective confidence
is the maximum of the two. -/
theorem C4_scope_resolution {pages : List (List Char)} {top_n i : Nat}
    {pg : List Char} {e : NumberContext} (hpg : pages.get? i = some pg)
    (h : e ∈ find_numbers_in_pdf pages top_n) (hnum : e.page_num = i + 1) :
    e.multiplier = (if (detect_unit_multiplier pg).2 >
          (detect_unit_multiplier (full_text pages)).2
        then (detect_unit_multiplier pg).1
        else (detect_unit_multiplier (full_text pages)).1) ∧
    e.confidence = max (detect_unit_multiplier pg).2
      (detect_unit_multiplier (full_text pages)).2 := by
  have hmem := scan_numbers_page hpg (mem_scan_of_mem_output h) hnum
  obtain ⟨_, hm, hc, _⟩ := page_numbers_fields hmem
  exact ⟨hm, hc⟩

/-- C4 (witness): the theorem applied to the one-page document `exText2`. -/
theorem C4_witness :
    exC3entry.multiplier = (if (detect_unit_multiplier exText2).2 >
          (detect_unit_multiplier (full_text [exText2])).2
        then (detect_unit_multiplier exText2).1
        else (detect_unit_multiplier (full_text [exText2])).1) ∧
    exC3entry.confidence = max (detect_unit_multiplier exText2).2
      (detect_unit_multiplier (full_text [exText2])).2 :=
  @C4_scope_resolution [exText2] 5 0 exText2 exC3entry
    (by decide) (by decide)
    (by decide)

/-- C5 (counterexample): `find_largest_numbers` multiplies the raw value by
BOTH the document-global and the context-local multiplier.  On `exText3`
the only candidate has raw value `5.5`, the global multiplier is `10^6`
("dollars in millions") and the local multiplier is `10^12` ("trillion"),
so the reported value `5.5 × 10^18` is not the raw value scaled by any
single multiplier from `{1, 10^3, 10^6, 10^9, 10^12}`. -/
theorem C5_counterexample :
    PDFNumberParser.candidate_numbers exText3 = [((11 / 2 : ℚ), 33, 36)] ∧
    (PDFNumberParser.find_largest_numbers exText3).map Prod.fst =
      some (11 / 2 * (1000000 * 1000000000000)) ∧
    (∀ m ∈ ([1, 10 ^ 3, 10 ^ 6, 10 ^ 9, 10 ^ 12] : List ℚ),
      (11 / 2 * (1000000 * 1000000000000) : ℚ) ≠ 11 / 2 * m) := by
  refine ⟨by decide, by decide, ?_⟩
  intro m hm
  fin_cases hm <;> norm_num

/-- C5 (amended): in `find_numbers_in_pdf` a reported value is the raw
parsed value either unscaled or multiplied by exactly one multiplier; in
`find_largest_numbers` the reported value is the winning candidate's raw
value times the product of one global multiplier (from `{1, 10^3, 10^6}`)
and one local multiplier (from `{1, 10^3, 10^6, 10^9, 10^12}`), which can
compound two non-unit multipliers. -/
theorem C5_scaling_form :
    (∀ (pages : List (List Char)) (top_n : Nat) (e : NumberContext),
      e ∈ find_numbers_in_pdf pages top_n →
        e.value = parseNumber e.raw_text ∨
        ∃ m ∈ ([10 ^ 3, 10 ^ 6, 10 ^ 9] : List ℚ),
          e.value = parseNumber e.raw_text * m) ∧
    (∀ (text : List Char) (v : ℚ) (c : List Char),
      PDFNumberParser.find_largest_numbers text = some (v, c) →
      ∃ t ∈ PDFNumberParser.candidate_numbers text,
        ∃ g ∈ ([1, 10 ^ 3, 10 ^ 6] : List ℚ),
          ∃ l ∈ ([1, 10 ^ 3, 10 ^ 6, 10 ^ 9, 10 ^ 12] : List ℚ),
            v = t.1 * g * l) := by
  constructor
  · intro pages top_n e h
    obtain ⟨i, pg, hpg, hnum, hmem⟩ := scan_numbers_mem (mem_scan_of_mem_output h)
    obtain ⟨_, hm, _, hv⟩ := page_numbers_fields hmem
    by_cases hc : e.confidence > 0.3
    · rw [hv, if_pos hc]
      have hmem4 : e.multiplier ∈ ([1, 10 ^ 3, 10 ^ 6, 10 ^ 9] : List ℚ) := by
        rw [hm]
        split
        · exact detect_mult_mem pg
        · exact detect_mult_mem (full_text pages)
      simp only [List.mem_cons, List.not_mem_nil, or_false] at hmem4
      rcases hmem4 with h1 | h3 | h6 | h9
      · left
        rw [h1, mul_one]
      · right
        exact ⟨10 ^ 3, List.mem_cons_self _ _, by rw [h3]⟩
      · right
        exact ⟨10 ^ 6, List.mem_cons_of_mem _ (List.mem_cons_self _ _), by rw [h6]⟩
      · right
        exact ⟨10 ^ 9, List.mem_cons_of_mem _ (List.mem_cons_of_mem _
          (List.mem_cons_self _ _)), by rw [h9]⟩
    · rw [hv, if_neg hc]
      exact Or.inl rfl
  · intro text v c h
    unfold PDFNumberParser.find_largest_numbers at h
    cases hcand : PDFNumberParser.candidate_numbers text with
    | nil =>
        rw [hcand] at h
        exact absurd h (by simp)
    | cons c0 cs =>
        rw [hcand] at h
        have h2 := Option.some.inj h
        have hv2 := congrArg Prod.fst h2
        refine ⟨PDFNumberParser.max_by_fst c0 cs, ?_, ?_⟩
        · exact max_by_fst_mem c0 cs
        · exact ⟨PDFNumberParser.detect_global_multiplier text,
            detect_global_mem text,
            PDFNumberParser.detect_local_multiplier
              (PDFNumberParser.wide_context text
                (PDFNumberParser.max_by_fst c0 cs).2.1
                (PDFNumberParser.max_by_fst c0 cs).2.2),
            detect_local_mem _, hv2.symm⟩

/-- C6: the ranked output has at most `top_n` entries (default `5`), is
sorted by scaled value in descending order (`valGe`), and entries with any
given scaled value appear in their original scan order (the sort is
stable: the filtered subsequence of the output is an initial segment of
the corresponding subsequence of `scan_numbers`). -/
theorem C6_top_n_sorted_stable (pages : List (List Char)) (top_n : Nat) :
    (find_numbers_in_pdf pages top_n).length ≤ top_n ∧
    List.Sorted valGe (find_numbers_in_pdf pages top_n) ∧
    (∀ q : ℚ, ∃ t, (scan_numbers pages).filter (fun e => e.value = q) =
      (find_numbers_in_pdf pages top_n).filter (fun e => e.value = q) ++ t) ∧
    find_numbers_in_pdf pages = find_numbers_in_pdf pages 5 := by
  refine ⟨?_, ?_, ?_, rfl⟩
  · unfold find_numbers_in_pdf
    rw [List.length_take]
    exact min_le_left _ _
  · unfold find_numbers_in_pdf
    exact List.Pairwise.sublist (List.take_sublist _ _)
      (List.sorted_insertionSort valGe _)
  · intro q
    refine ⟨(List.drop top_n (List.insertionSort valGe
      (scan_numbers pages))).filter (fun e => e.value = q), ?_⟩
    unfold find_numbers_in_pdf
    rw [← filter_insertionSort_value q (scan_numbers pages)]
    conv_lhs => rw [← List.take_append_drop top_n
      (List.insertionSort valGe (scan_numbers pages))]
    rw [List.filter_append]

/-- C7: `find_largest_numbers` fails (`none`, modelling the raised
`ValueError`) exactly when no candidate survives filtering; the CLI then
exits with the non-zero code `1`; otherwise no error is raised, a largest
value is returned, and the CLI exits `0`. -/
theorem C7_error_iff_no_candidates (text : List Char) :
    (PDFNumberParser.find_largest_numbers text = none ↔
      PDFNumberParser.candidate_numbers text = []) ∧
    (PDFNumberParser.candidate_numbers text = [] →
      PDFNumberParser.main_exit_code text = 1 ∧
        PDFNumberParser.main_exit_code text ≠ 0) ∧
    (PDFNumberParser.candidate_numbers text ≠ [] →
      ∃ v c, PDFNumberParser.find_largest_numbers text = some (v, c) ∧
        PDFNumberParser.main_exit_code text = 0) := by
  cases hcand : PDFNumberParser.candidate_numbers text with
  | nil =>
      have hnone : PDFNumberParser.find_largest_numbers text = none := by
        unfold PDFNumberParser.find_largest_numbers
        rw [hcand]
      refine ⟨⟨fun _ => rfl, fun _ => hnone⟩, fun _ => ?_, fun hne => absurd rfl hne⟩
      unfold PDFNumberParser.main_exit_code
      rw [hnone]
      exact ⟨rfl, by decide⟩
  | cons c0 cs =>
      have hsome : PDFNumberParser.find_largest_numbers text =
          some ((PDFNumberParser.max_by_fst c0 cs).1 *
            PDFNumberParser.detect_global_multiplier text *
            PDFNumberParser.detect_local_multiplier
              (PDFNumberParser.wide_context text
                (PDFNumberParser.max_by_fst c0 cs).2.1
                (PDFNumberParser.max_by_fst c0 cs).2.2),
            pyStrip (PDFNumberParser.wide_context text
              (PDFNumberParser.max_by_fst c0 cs).2.1
              (PDFNumberParser.max_by_fst c0 cs).2.2)) := by
        unfold PDFNumberParser.find_largest_numbers
        rw [hcand]
      have hexit : PDFNumberParser.main_exit_code text = 0 := by
        unfold PDFNumberParser.main_exit_code
        rw [hsome]
      refine ⟨⟨fun hn => ?_, fun he => ?_⟩, fun he => ?_, fun _ => ?_⟩
      · rw [hsome] at hn
        exact absurd hn (by simp)
      · exact absurd he (List.cons_ne_nil c0 cs)
      · exact absurd he (List.cons_ne_nil c0 cs)
      · exact ⟨_, _, hsome, hexit⟩

/-- C7 (witness): on the document `total 5.5` a candidate survives, a
largest value is returned and the CLI exits `0`. -/
theorem C7_witness :
    PDFNumberParser.candidate_numbers exText4 ≠ [] ∧
      PDFNumberParser.main_exit_code exText4 = 0 := by
  have h := (C7_error_iff_no_candidates exText4).2.2 (by decide)
  obtain ⟨v, c, _, h0⟩ := h
  exact ⟨by decide, h0⟩

/-- Confidence `0` forces a matching count of zero: a positive `ruleConf`
means the rule matched. -/
theorem ruleConf_pos_count {text : List Char} {p : UnitPattern}
    (h : 0 < ruleConf text p) : countMatches p.matcher text ≠ 0 := by
  intro hc
  rw [show ruleConf text p = 0 by unfold ruleConf; rw [if_pos hc]] at h
  exact lt_irrefl 0 h

/-- C8: multiplier application is monotonic — for two numbers of the same
page (hence the same scope, confidence and applied multiplier) the order
of the scaled values equals the order of the raw parsed values. -/
theorem C8_rank_preserved {pages : List (List Char)} {top_n : Nat}
    {e₁ e₂ : NumberContext} (h₁ : e₁ ∈ find_numbers_in_pdf pages top_n)
    (h₂ : e₂ ∈ find_numbers_in_pdf pages top_n)
    (hpage : e₁.page_num = e₂.page_num) :
    (parseNumber e₁.raw_text ≤ parseNumber e₂.raw_text ↔
      e₁.value ≤ e₂.value) := by
  obtain ⟨i₁, pg₁, hpg₁, hnum₁, hmem₁⟩ :=
    scan_numbers_mem (mem_scan_of_mem_output h₁)
  obtain ⟨i₂, pg₂, hpg₂, hnum₂, hmem₂⟩ :=
    scan_numbers_mem (mem_scan_of_mem_output h₂)
  have hi : i₁ = i₂ := by omega
  subst hi
  have hpg : pg₁ = pg₂ := by
    rw [hpg₁] at hpg₂
    exact Option.some.inj hpg₂
  subst hpg
  obtain ⟨_, hm₁, hc₁, hv₁⟩ := page_numbers_fields hmem₁
  obtain ⟨_, hm₂, hc₂, hv₂⟩ := page_numbers_fields hmem₂
  have hmm : e₁.multiplier = e₂.multiplier := hm₁.trans hm₂.symm
  have hcc : e₁.confidence = e₂.confidence := hc₁.trans hc₂.symm
  have hpos : 0 < e₁.multiplier := by
    rw [hm₁]
    split
    · exact detect_multiplier_pos _
    · exact detect_multiplier_pos _
  rw [hv₁, hv₂, ← hmm, ← hcc]
  by_cases hgt : e₁.confidence > 0.3
  · rw [if_pos hgt, if_pos hgt]
    exact (mul_le_mul_right hpos).symm
  · rw [if_neg hgt, if_neg hgt]

/-- C8 (witness): the theorem applied to the two numbers of the one-page
document `7 8`. -/
theorem C8_witness :
    (parseNumber exE7.raw_text ≤ parseNumber exE8.raw_text ↔
      exE7.value ≤ exE8.value) :=
  @C8_rank_preserved [exPage78] 5 exE7 exE8
    (by decide) (by decide)
    (by decide)

/-- C10: the detector returns either `(1, 0)` (no rule matched) or a
confidence of at least `0.3`; one occurrence of a non-qualifier rule
yields confidence exactly `0.3`, which does not pass the strict `> 0.3`
gate; and any number whose effective confidence is at most `0.3` is left
unscaled. -/
theorem C10_isolated_mention_never_scales (text : List Char) :
    (detect_unit_multiplier text = (1, 0) ∨
      3 / 10 ≤ (detect_unit_multiplier text).2) ∧
    (∀ p ∈ UNIT_PATTERNS, countMatches p.matcher text = 1 →
      hasQualifierBonus p = false →
        ruleConf text p = 3 / 10 ∧ ¬ ((3 / 10 : ℚ) > 3 / 10)) ∧
    (∀ (pages : List (List Char)) (top_n : Nat) (e : NumberContext),
      e ∈ find_numbers_in_pdf pages top_n → e.confidence ≤ 3 / 10 →
        e.value = parseNumber e.raw_text) := by
  refine ⟨?_, ?_, ?_⟩
  · rw [detect_eq_specBest]
    simp only [specBest]
    cases hfind : UNIT_PATTERNS.find? (fun p => decide (0 < ruleConf text p) &&
        UNIT_PATTERNS.all (fun q => decide (ruleConf text q ≤ ruleConf text p))) with
    | none => exact Or.inl rfl
    | some p =>
        right
        have hpred := List.find?_some hfind
        simp only [Bool.and_eq_true, decide_eq_true_eq] at hpred
        exact ruleConf_of_matched text p (ruleConf_pos_count hpred.1)
  · intro p _ h1 h0
    refine ⟨?_, by norm_num⟩
    unfold ruleConf
    rw [if_neg (by rw [h1]; exact one_ne_zero), h1, h0]
    norm_num
  · intro pages top_n e h hle
    obtain ⟨i, pg, hpg, hnum, hmem⟩ := scan_numbers_mem (mem_scan_of_mem_output h)
    obtain ⟨_, _, _, hv⟩ := page_numbers_fields hmem
    exact hv.trans (if_neg (by rw [q_threeTenths]; exact not_lt.mpr hle))

/-- C10 (witness): on `exText2` the detector confidence is at least `0.3`;
the bare `in millions` rule has one match, no bonus, and confidence
exactly `0.3`; and the single number of the document stays unscaled. -/
theorem C10_witness :
    (detect_unit_multiplier exText2 = (1, 0) ∨
      3 / 10 ≤ (detect_unit_multiplier exText2).2) ∧
    (ruleConf exText2 inMillionsRule = 3 / 10 ∧ ¬ ((3 / 10 : ℚ) > 3 / 10)) ∧
    exC3entry.value = parseNumber exC3entry.raw_text := by
  refine ⟨(C10_isolated_mention_never_scales exText2).1, ?_, ?_⟩
  · exact (C10_isolated_mention_never_scales exText2).2.1 inMillionsRule
      (by unfold inMillionsRule UNIT_PATTERNS
          exact List.mem_cons_of_mem _ (List.mem_cons_self _ _))
      (by decide) (by decide)
  · exact (C10_isolated_mention_never_scales exText2).2.2 [exText2] 5 exC3entry
      (by decide) (by decide)

/-! ### Success characterisation of the matcher combinators

These lemmas recover, from a successful match, the decomposition of the
input into the consumed prefix and the remainder. -/

theorem optP_some {p : MPat} {k : MCont} {prev : Option Char}
    {rest : List Char} {n : Nat} (h : optP p k prev rest = some n) :
    p k prev rest = some n ∨ k prev rest = some n := by
  unfold optP at h
  cases hp : p k prev rest with
  | some m =>
      rw [hp] at h
      exact Or.inl (show (some m : Option Nat) = some n from h)
  | none =>
      rw [hp] at h
      exact Or.inr (show k prev rest = some n from h)

theorem altP_some : ∀ {ps : List MPat} {k : MCont} {prev : Option Char}
    {rest : List Char} {n : Nat}, altP ps k prev rest = some n →
    ∃ p ∈ ps, p k prev rest = some n := by
  intro ps
  induction ps with
  | nil => intro k prev rest n h; exact absurd h (by unfold altP; simp)
  | cons p pt ih =>
      intro k prev rest n h
      unfold altP at h
      cases hp : p k prev rest with
      | some m =>
          rw [hp] at h
          exact ⟨p, List.mem_cons_self p pt,
            hp.trans (show (some m : Option Nat) = some n from h)⟩
      | none =>
          rw [hp] at h
          obtain ⟨p2, hp2, hh⟩ := ih (show altP pt k prev rest = some n from h)
          exact ⟨p2, List.mem_cons_of_mem p hp2, hh⟩

theorem clsOne_some {cl : Char → Bool} {k : MCont} (prev : Option Char)
    {rest : List Char} {n : Nat} (h : clsOne cl k prev rest = some n) :
    ∃ ch rs m, rest = ch :: rs ∧ cl ch = true ∧ k (some ch) rs = some m ∧
      n = m + 1 := by
  cases rest with
  | nil => exact absurd (show (none : Option Nat) = some n from h) (by simp)
  | cons ch rs =>
      replace h : (if cl ch then (k (some ch) rs).map (· + 1) else none) =
        some n := h
      by_cases hcl : cl ch = true
      · rw [if_pos hcl] at h
        obtain ⟨m, hm, hn⟩ := Option.map_eq_some'.mp h
        exact ⟨ch, rs, m, rfl, hcl, hm, hn.symm⟩
      · rw [if_neg hcl] at h
        exact absurd h (by simp)

theorem litCS_single_some {s : String} {c0 : Char} (hs : s.toList = [c0])
    {k : MCont} {prev : Option Char} {rest : List Char} {n : Nat}
    (h : litCS s k prev rest = some n) :
    ∃ rs m, rest = c0 :: rs ∧ k (some c0) rs = some m ∧ n = m + 1 := by
  unfold litCS at h
  rw [hs] at h
  cases rest with
  | nil => exact absurd h (by unfold litGo; simp)
  | cons r rs =>
      unfold litGo at h
      by_cases hr : r = c0
      · subst hr
        rw [if_pos (by simp)] at h
        unfold litGo at h
        obtain ⟨m, hm, hn⟩ := Option.map_eq_some'.mp h
        exact ⟨rs, m, rfl, hm, hn.symm⟩
      · rw [if_neg (by simpa using hr)] at h
        exact absurd h (by simp)

theorem wb_some {k : MCont} {prev : Option Char} {rest : List Char} {n : Nat}
    (h : wb k prev rest = some n) : k prev rest = some n := by
  unfold wb at h
  by_cases hb : (wordAt prev != headWord rest) = true
  · rwa [if_pos hb] at h
  · rw [if_neg hb] at h
    exact absurd h (by simp)

theorem clsPlusGo_some {cl : Char → Bool} {k : MCont} :
    ∀ {rest : List Char} {prev : Option Char} {n : Nat},
      clsPlusGo cl k prev rest = some n →
      ∃ f rs prev2 m, rest = f ++ rs ∧ 1 ≤ f.length ∧ f.all cl = true ∧
        k prev2 rs = some m ∧ n = f.length + m := by
  intro rest
  induction rest with
  | nil => intro prev n h; exact absurd h (by unfold clsPlusGo; simp)
  | cons ch rs ih =>
      intro prev n h
      unfold clsPlusGo at h
      by_cases hcl : cl ch = true
      · rw [if_pos hcl] at h
        cases hrec : clsPlusGo cl k (some ch) rs with
        | some n2 =>
            rw [hrec] at h
            obtain ⟨f, rs2, prev2, m, hsplit, hlen, hall, hk, hn2⟩ := ih hrec
            refine ⟨ch :: f, rs2, prev2, m, by rw [hsplit]; rfl, by simp, ?_,
              hk, ?_⟩
            · simp [hall, hcl]
            · have hn : n = n2 + 1 := (Option.some.inj h).symm
              simp [hn, hn2, List.length_cons]
              omega
        | none =>
            rw [hrec] at h
            obtain ⟨m, hm, hn⟩ := Option.map_eq_some'.mp h
            exact ⟨[ch], rs, some ch, m, rfl, by simp, by simp [hcl], hm,
              by simp [List.length_singleton]; omega⟩
      · rw [if_neg hcl] at h
        exact absurd h (by simp)

theorem acceptK_some {prev : Option Char} {rest : List Char} {n : Nat}
    (h : acceptK prev rest = some n) : n = 0 :=
  (Option.some.inj h).symm

theorem digitVal_le_9 {c : Char} (h : c.isDigit = true) : digitVal c ≤ 9 := by
  unfold Char.isDigit at h
  simp only [Bool.and_eq_true, decide_eq_true_eq] at h
  have h2 : c.val.toNat ≤ 57 :=
    UInt32.toNat_le_of_le (by norm_num [UInt32.size]) h.2
  unfold digitVal Char.toNat
  omega

theorem digit_ne_comma {c : Char} (h : c.isDigit = true) : c ≠ ',' := by
  intro hc
  subst hc
  exact absurd h (by decide)

theorem digit_ne_dot {c : Char} (h : c.isDigit = true) : c ≠ '.' := by
  intro hc
  subst hc
  exact absurd h (by decide)

theorem digit_ne_minus {c : Char} (h : c.isDigit = true) : c ≠ '-' := by
  intro hc
  subst hc
  exact absurd h (by decide)

theorem commaGroup_some {k : MCont} {prev : Option Char} {rest : List Char}
    {n : Nat} (h : commaGroup k prev rest = some n) :
    ∃ d1 d2 d3 rs m, rest = ',' :: d1 :: d2 :: d3 :: rs ∧
      d1.isDigit = true ∧ d2.isDigit = true ∧ d3.isDigit = true ∧
      k (some d3) rs = some m ∧ n = m + 4 := by
  unfold commaGroup seqP at h
  obtain ⟨rs1, m1, hr1, hk1, hn1⟩ := litCS_single_some (by rfl) h
  obtain ⟨c1, rs2, m2, hr2, hd1, hk2, hn2⟩ := clsOne_some none hk1
  obtain ⟨c2, rs3, m3, hr3, hd2, hk3, hn3⟩ := clsOne_some none hk2
  obtain ⟨c3, rs4, m4, hr4, hd3, hk4, hn4⟩ := clsOne_some none hk3
  refine ⟨c1, c2, c3, rs4, m4, ?_, hd1, hd2, hd3, hk4, by omega⟩
  rw [hr1, hr2, hr3, hr4]

theorem dUpTo3_some {k : MCont} {prev : Option Char} {rest : List Char}
    {n : Nat} (h : dUpTo3 k prev rest = some n) :
    ∃ i rs prev2 m, rest = i ++ rs ∧ 1 ≤ i.length ∧ i.length ≤ 3 ∧
      i.all Char.isDigit = true ∧ k prev2 rs = some m ∧ n = i.length + m := by
  unfold dUpTo3 at h
  obtain ⟨p, hp, hh⟩ := altP_some h
  simp only [List.mem_cons, List.not_mem_nil, or_false] at hp
  rcases hp with rfl | rfl | rfl
  · unfold seqP at hh
    obtain ⟨c1, rs1, m1, hr1, hd1, hk1, hn1⟩ := clsOne_some prev hh
    obtain ⟨c2, rs2, m2, hr2, hd2, hk2, hn2⟩ := clsOne_some (some c1) hk1
    obtain ⟨c3, rs3, m3, hr3, hd3, hk3, hn3⟩ := clsOne_some (some c2) hk2
    refine ⟨[c1, c2, c3], rs3, some c3, m3, ?_, by simp, by simp,
      by simp [hd1, hd2, hd3], hk3, by simp; omega⟩
    rw [hr1, hr2, hr3]
    rfl
  · unfold seqP at hh
    obtain ⟨c1, rs1, m1, hr1, hd1, hk1, hn1⟩ := clsOne_some prev hh
    obtain ⟨c2, rs2, m2, hr2, hd2, hk2, hn2⟩ := clsOne_some (some c1) hk1
    refine ⟨[c1, c2], rs2, some c2, m2, ?_, by simp, by simp,
      by simp [hd1, hd2], hk2, by simp; omega⟩
    rw [hr1, hr2]
    rfl
  · obtain ⟨c1, rs1, m1, hr1, hd1, hk1, hn1⟩ := clsOne_some prev hh
    exact ⟨[c1], rs1, some c1, m1, by rw [hr1]; rfl, by simp, by simp,
      by simp [hd1], hk1, by simp; omega⟩

/-- Shape of the consumed text of at most three comma groups: a prefix `g`
whose comma-stripped content is at most nine digit characters and which
contains no decimal point. -/
theorem rep03_commaGroup_some {k : MCont} {prev : Option Char}
    {rest : List Char} {n : Nat} (h : rep03 commaGroup k prev rest = some n) :
    ∃ g rs prev2 m, rest = g ++ rs ∧
      (g.filter (fun c => c ≠ ',')).length ≤ 9 ∧
      (g.filter (fun c => c ≠ ',')).all Char.isDigit = true ∧
      g.all (fun c => c = ',' || c.isDigit) = true ∧
      k prev2 rs = some m ∧ n = g.length + m := by
  unfold rep03 at h
  rcases optP_some h with h1 | h1
  case inr =>
      exact ⟨[], rest, prev, n, rfl, by simp, by simp, by simp, h1, by simp⟩
  rw [show seqP [commaGroup, optP (seqP [commaGroup, optP commaGroup])] k =
    commaGroup (optP (seqP [commaGroup, optP commaGroup]) k) from rfl] at h1
  obtain ⟨d1, d2, d3, rs1, m1, hr1, hd1, hd2, hd3, hk1, hn1⟩ := commaGroup_some h1
  rcases optP_some hk1 with h2 | h2
  case inr =>
      refine ⟨[',', d1, d2, d3], rs1, some d3, m1, by rw [hr1]; rfl,
        ?_, ?_, ?_, h2, ?_⟩
      · simp [List.filter_cons, digit_ne_comma hd1, digit_ne_comma hd2,
          digit_ne_comma hd3]
      · simp [List.filter_cons, digit_ne_comma hd1, digit_ne_comma hd2,
          digit_ne_comma hd3, hd1, hd2, hd3]
      · simp [hd1, hd2, hd3]
      · simp only [List.length_cons, List.length_nil]
        omega
  rw [show seqP [commaGroup, optP commaGroup] k =
    commaGroup (optP commaGroup k) from rfl] at h2
  obtain ⟨e1, e2, e3, rs2, m2, hr2, he1, he2, he3, hk2, hn2⟩ := commaGroup_some h2
  rcases optP_some hk2 with h3 | h3
  case inr =>
      refine ⟨[',', d1, d2, d3, ',', e1, e2, e3], rs2, some e3, m2,
        by rw [hr1, hr2]; rfl, ?_, ?_, ?_, h3, ?_⟩
      · simp [List.filter_cons, digit_ne_comma hd1, digit_ne_comma hd2,
          digit_ne_comma hd3, digit_ne_comma he1, digit_ne_comma he2,
          digit_ne_comma he3]
      · simp [List.filter_cons, digit_ne_comma hd1, digit_ne_comma hd2,
          digit_ne_comma hd3, digit_ne_comma he1, digit_ne_comma he2,
          digit_ne_comma he3, hd1, hd2, hd3, he1, he2, he3]
      · simp [hd1, hd2, hd3, he1, he2, he3]
      · simp only [List.length_cons, List.length_nil]
        omega
  obtain ⟨f1, f2, f3, rs3, m3, hr3, hf1, hf2, hf3, hk3, hn3⟩ := commaGroup_some h3
  refine ⟨[',', d1, d2, d3, ',', e1, e2, e3, ',', f1, f2, f3], rs3, some f3, m3,
    by rw [hr1, hr2, hr3]; rfl, ?_, ?_, ?_, hk3, ?_⟩
  · simp [List.filter_cons, digit_ne_comma hd1, digit_ne_comma hd2,
      digit_ne_comma hd3, digit_ne_comma he1, digit_ne_comma he2,
      digit_ne_comma he3, digit_ne_comma hf1, digit_ne_comma hf2,
      digit_ne_comma hf3]
  · simp [List.filter_cons, digit_ne_comma hd1, digit_ne_comma hd2,
      digit_ne_comma hd3, digit_ne_comma he1, digit_ne_comma he2,
      digit_ne_comma he3, digit_ne_comma hf1, digit_ne_comma hf2,
      digit_ne_comma hf3, hd1, hd2, hd3, he1, he2, he3, hf1, hf2, hf3]
  · simp [hd1, hd2, hd3, he1, he2, he3, hf1, hf2, hf3]
  · simp only [List.length_cons, List.length_nil]
    omega

/-! ### From the match shape to the value bound -/

theorem digitsToNat_foldl_lt :
    ∀ (l : List Char) (a : Nat), l.all Char.isDigit = true →
      l.foldl (fun a c => a * 10 + digitVal c) a < (a + 1) * 10 ^ l.length := by
  intro l
  induction l with
  | nil => intro a _; simpa using Nat.lt_succ_self a
  | cons c t ih =>
      intro a hall
      simp only [List.all_cons, Bool.and_eq_true] at hall
      have hd := digitVal_le_9 hall.1
      have h2 := ih (a * 10 + digitVal c) hall.2
      rw [List.foldl_cons, List.length_cons]
      calc List.foldl (fun a c => a * 10 + digitVal c) (a * 10 + digitVal c) t
          < (a * 10 + digitVal c + 1) * 10 ^ t.length := h2
        _ ≤ (a + 1) * 10 ^ (t.length + 1) := by
            rw [pow_succ]
            have : a * 10 + digitVal c + 1 ≤ (a + 1) * 10 := by omega
            calc (a * 10 + digitVal c + 1) * 10 ^ t.length
                ≤ (a + 1) * 10 * 10 ^ t.length :=
                  Nat.mul_le_mul_right _ this
              _ = (a + 1) * (10 ^ t.length * 10) := by ring
        _ = (a + 1) * (10 ^ t.length * 10) := by ring

theorem digitsToNat_lt {l : List Char} (h : l.all Char.isDigit = true) :
    digitsToNat l < 10 ^ l.length := by
  have := digitsToNat_foldl_lt l 0 h
  simpa [digitsToNat] using this

theorem takeWhile_middle {p : Char → Bool} :
    ∀ (xs : List Char) (y : Char) (ys : List Char), xs.all p = true →
      p y = false → (xs ++ y :: ys).takeWhile p = xs := by
  intro xs y ys
  induction xs with
  | nil =>
      intro _ hy
      simp [List.takeWhile, hy]
  | cons x xt ih =>
      intro hall hy
      simp only [List.all_cons, Bool.and_eq_true] at hall
      rw [List.cons_append, List.takeWhile_cons, hall.1]
      simp only [if_true]
      rw [ih hall.2 hy]

theorem dropWhile_middle {p : Char → Bool} :
    ∀ (xs : List Char) (y : Char) (ys : List Char), xs.all p = true →
      p y = false → (xs ++ y :: ys).dropWhile p = y :: ys := by
  intro xs y ys
  induction xs with
  | nil =>
      intro _ hy
      simp [List.dropWhile, hy]
  | cons x xt ih =>
      intro hall hy
      simp only [List.all_cons, Bool.and_eq_true] at hall
      rw [List.cons_append, List.dropWhile_cons, hall.1]
      simp only [if_true]
      exact ih hall.2 hy

theorem parseNumber_bound {i g f : List Char}
    (hiall : i.all Char.isDigit = true) (hglen : g.length ≤ 9)
    (hgall : g.all Char.isDigit = true) (hilen : i.length ≤ 3)
    (hfall : f.all Char.isDigit = true) :
    0 ≤ parseNumber (i ++ g ++ '.' :: f) ∧
      parseNumber (i ++ g ++ '.' :: f) < 10 ^ 13 := by
  have hig : (i ++ g).all Char.isDigit = true := by
    simp only [List.all_append]
    simp [hiall, hgall]
  have hfilter : (i ++ g ++ '.' :: f).filter (fun c => c ≠ ',') =
      i ++ g ++ '.' :: f := by
    rw [List.filter_eq_self]
    intro a ha
    simp only [List.mem_append, List.mem_cons] at ha
    rcases ha with (ha | ha) | ha | ha
    · simp [digit_ne_comma (by
        rw [List.all_eq_true] at hiall
        exact hiall a ha)]
    · simp [digit_ne_comma (by
        rw [List.all_eq_true] at hgall
        exact hgall a ha)]
    · subst ha
      decide
    · simp [digit_ne_comma (by
        rw [List.all_eq_true] at hfall
        exact hfall a ha)]
  have hdot : (fun c => decide (c ≠ '.')) '.' = false := by decide
  have htake : ((i ++ g) ++ '.' :: f).takeWhile (fun c => c ≠ '.') = i ++ g := by
    apply takeWhile_middle
    · rw [List.all_eq_true]
      intro a ha
      rw [List.all_eq_true] at hig
      simpa using digit_ne_dot (hig a ha)
    · exact hdot
  have hdrop : ((i ++ g) ++ '.' :: f).dropWhile (fun c => c ≠ '.') = '.' :: f := by
    apply dropWhile_middle
    · rw [List.all_eq_true]
      intro a ha
      rw [List.all_eq_true] at hig
      simpa using digit_ne_dot (hig a ha)
    · exact hdot
  have hipbound : digitsToNat (i ++ g) < 10 ^ 12 := by
    have h1 := digitsToNat_lt hig
    have h2 : (10 : Nat) ^ (i ++ g).length ≤ 10 ^ 12 := by
      apply Nat.pow_le_pow_right (by norm_num)
      rw [List.length_append]
      omega
    omega
  have hfbound : digitsToNat f < 10 ^ f.length := digitsToNat_lt hfall
  unfold parseNumber
  dsimp only
  rw [hfilter, htake, hdrop]
  simp only [List.drop_one, List.tail_cons]
  constructor
  · positivity
  · have hfrac : (digitsToNat f : ℚ) / (10 : ℚ) ^ f.length < 1 := by
      rw [div_lt_one (by positivity)]
      exact_mod_cast hfbound
    have hip : (digitsToNat (i ++ g) : ℚ) ≤ 10 ^ 12 - 1 := by
      have : (digitsToNat (i ++ g) : ℚ) < 10 ^ 12 := by exact_mod_cast hipbound
      have h12 : ((digitsToNat (i ++ g) : ℚ) + 1) ≤ 10 ^ 12 := by
        have hn : digitsToNat (i ++ g) + 1 ≤ 10 ^ 12 := hipbound
        exact_mod_cast hn
      linarith
    have : (10 : ℚ) ^ 12 - 1 + 1 < 10 ^ 13 := by norm_num
    linarith

/-- Shape of a successful match of the number pattern after the optional
sign: integer digits, comma groups, a decimal point, fraction digits. -/
theorem numTail_shape {prev : Option Char} {rest : List Char} {n : Nat}
    (h : dUpTo3 (rep03 commaGroup (litCS (".") (clsPlus Char.isDigit acceptK)))
      prev rest = some n) :
    ∃ i g f rs, rest = i ++ g ++ '.' :: f ++ rs ∧
      n = i.length + g.length + 1 + f.length ∧
      1 ≤ i.length ∧ i.length ≤ 3 ∧ i.all Char.isDigit = true ∧
      (g.filter (fun c => c ≠ ',')).length ≤ 9 ∧
      (g.filter (fun c => c ≠ ',')).all Char.isDigit = true ∧
      g.all (fun c => c = ',' || c.isDigit) = true ∧
      1 ≤ f.length ∧ f.all Char.isDigit = true := by
  obtain ⟨i, rs1, prev2, m1, hsplit1, hi1, hi3, hiall, hk1, hn1⟩ := dUpTo3_some h
  obtain ⟨g, rs2, prev3, m2, hsplit2, hg9, hgall, hgshape, hk2, hn2⟩ :=
    rep03_commaGroup_some hk1
  obtain ⟨rs3, m3, hsplit3, hk3, hn3⟩ := litCS_single_some (by rfl) hk2
  obtain ⟨f, rs4, prev4, m4, hsplit4, hf1, hfall, hk4, hn4⟩ := clsPlusGo_some hk3
  have hm4 := acceptK_some hk4
  refine ⟨i, g, f, rs4, ?_, by omega, hi1, hi3, hiall, hg9, hgall, hgshape,
    hf1, hfall⟩
  rw [hsplit1, hsplit2, hsplit3, hsplit4]
  simp [List.append_assoc]

/-- Shape of a successful match of the full number pattern
`-?\d{1,3}(?:,\d{3}){0,3}\.\d+`. -/
theorem numPat_shape {prev : Option Char} {rest : List Char} {n : Nat}
    (h : runMPat PDFNumberParser.numPat prev rest = some n) :
    ∃ sg i g f rs, rest = sg ++ i ++ g ++ '.' :: f ++ rs ∧
      n = sg.length + i.length + g.length + 1 + f.length ∧
      (sg = [] ∨ sg = ['-']) ∧
      1 ≤ i.length ∧ i.length ≤ 3 ∧ i.all Char.isDigit = true ∧
      (g.filter (fun c => c ≠ ',')).length ≤ 9 ∧
      (g.filter (fun c => c ≠ ',')).all Char.isDigit = true ∧
      g.all (fun c => c = ',' || c.isDigit) = true ∧
      1 ≤ f.length ∧ f.all Char.isDigit = true := by
  replace h : optP (litCS ("-"))
      (dUpTo3 (rep03 commaGroup (litCS (".") (clsPlus Char.isDigit acceptK))))
      prev rest = some n := h
  rcases optP_some h with h1 | h1
  · obtain ⟨rs0, m0, hsplit0, hk0, hn0⟩ := litCS_single_some (by rfl) h1
    obtain ⟨i, g, f, rs, hsplit, hlen, props⟩ := numTail_shape hk0
    refine ⟨['-'], i, g, f, rs, ?_, by simp; omega, Or.inr rfl, props.1,
      props.2.1, props.2.2.1, props.2.2.2.1, props.2.2.2.2.1,
      props.2.2.2.2.2.1, props.2.2.2.2.2.2.1, props.2.2.2.2.2.2.2⟩
    rw [hsplit0, hsplit]
    rfl
  · obtain ⟨i, g, f, rs, hsplit, hlen, props⟩ := numTail_shape h1
    exact ⟨[], i, g, f, rs, by rw [hsplit]; rfl, by simp; omega, Or.inl rfl,
      props.1, props.2.1, props.2.2.1, props.2.2.2.1, props.2.2.2.2.1,
      props.2.2.2.2.2.1, props.2.2.2.2.2.2.1, props.2.2.2.2.2.2.2⟩

theorem parseSigned_cons_of_ne {c : Char} {l : List Char} (h : c ≠ '-') :
    parseSigned (c :: l) = parseNumber (c :: l) := by
  unfold parseSigned
  split
  · rename_i heq
    injection heq with h1 _
    exact absurd h1 h
  · rfl

/-- Comma-stripping a matched prefix keeps only the digit content and the
decimal point. -/
theorem matched_filter {sg i g f : List Char}
    (hsg : sg = [] ∨ sg = ['-'])
    (hiall : i.all Char.isDigit = true)
    (hgshape : g.all (fun c => c = ',' || c.isDigit) = true)
    (hfall : f.all Char.isDigit = true) :
    (sg ++ i ++ g ++ '.' :: f).filter (fun c => c ≠ ',') =
      sg ++ i ++ g.filter (fun c => c ≠ ',') ++ '.' :: f := by
  simp only [List.filter_append]
  have hsgf : sg.filter (fun c => c ≠ ',') = sg := by
    rcases hsg with rfl | rfl
    · rfl
    · decide
  have hif : i.filter (fun c => c ≠ ',') = i := by
    rw [List.filter_eq_self]
    intro a ha
    rw [List.all_eq_true] at hiall
    simpa using digit_ne_comma (hiall a ha)
  have hff : ('.' :: f).filter (fun c => c ≠ ',') = '.' :: f := by
    rw [List.filter_eq_self]
    intro a ha
    rcases List.mem_cons.mp ha with rfl | ha
    · decide
    · rw [List.all_eq_true] at hfall
      simpa using digit_ne_comma (hfall a ha)
  rw [hsgf, hif, hff]

/-- Bound on the parsed value of any successful match of the number
pattern: the integer part has at most 12 digits, so the absolute value is
(far) below `10^13`. -/
theorem numPat_value_bound {prev : Option Char} {rest : List Char} {n : Nat}
    (h : runMPat PDFNumberParser.numPat prev rest = some n) :
    |parseSigned ((rest.take n).filter (fun c => c ≠ ','))| < 10 ^ 13 := by
  obtain ⟨sg, i, g, f, rs, hsplit, hlen, hsg, hi1, hi3, hiall, hg9, hgall,
    hgshape, hf1, hfall⟩ := numPat_shape h
  have htake : rest.take n = sg ++ i ++ g ++ '.' :: f := by
    rw [hsplit]
    rw [show sg ++ i ++ g ++ '.' :: f ++ rs =
      (sg ++ i ++ g ++ '.' :: f) ++ rs by simp [List.append_assoc]]
    rw [List.take_left']
    simp [List.length_append]
    omega
  rw [htake, matched_filter hsg hiall hgshape hfall]
  obtain ⟨hb0, hb13⟩ := parseNumber_bound hiall hg9 hgall hi3 hfall
  rcases hsg with rfl | rfl
  · simp only [List.nil_append]
    cases i with
    | nil => exact absurd hi1 (by simp)
    | cons c i2 =>
        have hcd : c.isDigit = true := by
          rw [List.all_eq_true] at hiall
          exact hiall c (List.mem_cons_self c i2)
        rw [show (c :: i2) ++ g.filter (fun c => c ≠ ',') ++ '.' :: f =
          c :: (i2 ++ g.filter (fun c => c ≠ ',') ++ '.' :: f) by simp]
        rw [parseSigned_cons_of_ne (digit_ne_minus hcd)]
        rw [show c :: (i2 ++ g.filter (fun c => c ≠ ',') ++ '.' :: f) =
          (c :: i2) ++ g.filter (fun c => c ≠ ',') ++ '.' :: f by simp]
        rw [abs_of_nonneg hb0]
        exact hb13
  · rw [show ['-'] ++ i ++ g.filter (fun c => c ≠ ',') ++ '.' :: f =
      '-' :: (i ++ g.filter (fun c => c ≠ ',') ++ '.' :: f) by simp]
    rw [show parseSigned ('-' :: (i ++ g.filter (fun c => c ≠ ',') ++ '.' :: f)) =
      -(parseNumber (i ++ g.filter (fun c => c ≠ ',') ++ '.' :: f)) from rfl]
    rw [abs_neg, abs_of_nonneg hb0]
    exact hb13

/-- Every span reported by the scanner comes from a successful match of
the pattern at that very position. -/
theorem finditerFuel_sound (p : MPat) :
    ∀ (N : Nat) (prev : Option Char) (pos : Nat) (rest : List Char),
      ∀ {s n : Nat}, (s, n) ∈ finditerFuel p N prev pos rest →
      pos ≤ s ∧ ∃ prev2, runMPat p prev2 (rest.drop (s - pos)) = some n := by
  intro N
  induction N with
  | zero =>
      intro prev pos rest s n h
      exact absurd (show (s, n) ∈ ([] : List (Nat × Nat)) from h)
        (List.not_mem_nil _)
  | succ N ih =>
      intro prev pos rest s n h
      replace h : (s, n) ∈ finditerStep p (finditerFuel p N) prev pos rest := h
      unfold finditerStep at h
      cases hrun : runMPat p prev rest with
      | some n2 =>
          rw [hrun] at h
          cases rest with
          | nil =>
              simp only [List.mem_singleton, Prod.mk.injEq] at h
              obtain ⟨rfl, rfl⟩ := h
              exact ⟨le_refl _, prev, by simpa using hrun⟩
          | cons c rs =>
              rcases List.mem_cons.mp h with heq | hmem
              · obtain ⟨rfl, rfl⟩ := Prod.mk.injEq .. ▸ heq
                exact ⟨le_refl _, prev, by simpa using hrun⟩
              · obtain ⟨hle, prev2, hrun2⟩ := ih _ _ _ hmem
                refine ⟨by omega, prev2, ?_⟩
                rw [List.drop_drop] at hrun2
                rw [show s - pos = max n2 1 + (s - (pos + max n2 1)) by omega]
                exact hrun2
      | none =>
          rw [hrun] at h
          cases rest with
          | nil => exact absurd h (by simp)
          | cons c rs =>
              obtain ⟨hle, prev2, hrun2⟩ := ih _ _ _ h
              refine ⟨by omega, prev2, ?_⟩
              rw [show s - pos = s - (pos + 1) + 1 by omega]
              rw [show (c :: rs).drop (s - (pos + 1) + 1) =
                rs.drop (s - (pos + 1)) by simp [List.drop_succ_cons]]
              exact hrun2

/-- Every candidate of `find_largest_numbers` originates in a successful
match of the number pattern at its recorded span, and its value is the
parse of the comma-stripped matched text. -/
theorem candidate_from_match {text : List Char} {q : ℚ} {s e : Nat}
    (h : (q, s, e) ∈ PDFNumberParser.candidate_numbers text) :
    ∃ n prev2, e = s + n ∧
      runMPat PDFNumberParser.numPat prev2 (text.drop s) = some n ∧
      q = parseSigned (((text.drop s).take n).filter (fun c => c ≠ ',')) := by
  unfold PDFNumberParser.candidate_numbers at h
  simp only [List.mem_filterMap] at h
  obtain ⟨m, hm, hf⟩ := h
  obtain ⟨hle, prev2, hrun⟩ := finditerFuel_sound PDFNumberParser.numPat
    (text.length + 1) none 0 text hm
  rw [Nat.sub_zero] at hrun
  have hfe : parseSigned ((pySlice text m.1 (m.1 + m.2)).filter
      (fun c => c ≠ ',')) = q ∧ m.1 = s ∧ m.1 + m.2 = e := by
    split at hf
    · exact absurd hf (by simp)
    · split at hf
      · exact absurd hf (by simp)
      · split at hf
        · simp only [Option.some.injEq, Prod.mk.injEq] at hf
          exact hf
        · exact absurd hf (by simp)
  obtain ⟨hq, rfl, rfl⟩ := hfe
  refine ⟨m.2, prev2, rfl, hrun, ?_⟩
  rw [← hq]
  unfold pySlice
  rw [show m.1 + m.2 - m.1 = m.2 by omega]

/-- C9: `find_largest_numbers` never sees a candidate value with more than
13 integer digits — in fact the number pattern can match at most 12 digits
before the decimal point, so every surviving candidate's raw value has
absolute value below `10^13` (the explicit `raw_val > 1e13` filter in the
code can therefore never fire, and no implausibly large value reaches the
ranking step). -/
theorem C9_digit_cap {text : List Char} {q : ℚ} {s e : Nat}
    (h : (q, s, e) ∈ PDFNumberParser.candidate_numbers text) :
    |q| < 10 ^ 13 := by
  obtain ⟨n, prev2, _, hrun, hq⟩ := candidate_from_match h
  rw [hq]
  exact numPat_value_bound hrun

/-- C9 (witness): the single candidate of the document `total 5.5`. -/
theorem C9_witness : |(11 / 2 : ℚ)| < 10 ^ 13 :=
  @C9_digit_cap exText4 (11 / 2) 6 9 (by decide)
